import Mathlib

/-!
Verification of the storm-lua-minify core against its specification.

The definitions below are shallow embeddings of the TypeScript source:
  * `isNeedSeparator`       — src/ast2lua.ts / part_003 `isNeedSeparator`
  * `isKeyword`             — part_003 `isKeyword`
  * `IDENTIFIER_PARTS`, `generateZeroes`, `advanceRev`, `generateFresh`,
    `generateIdentifier`    — part_003 `Minifier.generateIdentifier`
  * the statement/expression printer — part_003 `Minifier.formatStatement`,
    `formatExpression`, `formatBase`, `addWithSeparator`, ...
  * `parseModule`, `runRequests`    — part_000 `Minifier.parseModule`
  * `minifierParse`                 — part_000 `Minifier.parse`
  * `luaFilesForEach`               — part_001 `luaFiles.forEach`
Strings are modelled by `String`, JavaScript `Map`/`Set` by association
lists, thrown exceptions by `Option`/`Except`, and the mutable
`currentIdentifier`/`identifierMap` state by explicit state passing.
-/

/-! ## Separator resolver (part_003 lines 159–209) -/

/-- The regex `/[a-zA-Z_]/` from `isNeedSeparator`, by character codes. -/
def regexAlphaUnderscore (c : Char) : Bool :=
  (97 ≤ c.toNat && c.toNat ≤ 122) || (65 ≤ c.toNat && c.toNat ≤ 90) || c.toNat == 95

/-- The regex `/[a-zA-Z0-9_]/` from `isNeedSeparator`. -/
def regexAlphaNumUnderscore (c : Char) : Bool :=
  regexAlphaUnderscore c || (48 ≤ c.toNat && c.toNat ≤ 57)

/-- The regex `/[0-9]/` from `isNeedSeparator`. -/
def regexDigits (c : Char) : Bool :=
  48 ≤ c.toNat && c.toNat ≤ 57

/-- part_003 `isNeedSeparator(a, b)`.  `a.slice(-1)` is the last character of
`a` (`none` when `a` is empty), `b.charAt(0)` the first character of `b`, and
`a.slice(-2, -1)` the second-to-last character of `a`.  The sequential `if`
chain is transcribed verbatim. -/
def isNeedSeparator (a b : String) : Bool :=
  match a.data.getLast?, b.data.head? with
  | some lastCharA, some firstCharB =>
    if regexAlphaUnderscore lastCharA then
      -- e.g. `while` + `1`; else e.g. `not` + `(2>3 or 3<2)`
      regexAlphaNumUnderscore firstCharB
    else if regexDigits lastCharA then
      -- e.g. `1` + `+` vs `1` + `..`
      if firstCharB == '(' || !(firstCharB == '.' || regexAlphaUnderscore firstCharB)
      then false else true
    else if lastCharA == firstCharB && lastCharA == '-' then
      -- e.g. `1-` + `-2`
      true
    else if lastCharA == '.' && !(a.data.dropLast.getLast? == some '.')
            && regexAlphaNumUnderscore firstCharB then
      -- e.g. `1.` + `print`
      true
    else false
  | _, _ => false

/-- The separator cases exactly as the claim C3 words them: both strings
non-empty, and one of the four character-class situations holds. -/
def separatorClaim (a b : String) : Prop :=
  ∃ la fb, a.data.getLast? = some la ∧ b.data.head? = some fb ∧
    ((regexAlphaUnderscore la = true ∧ regexAlphaNumUnderscore fb = true) ∨
     (regexDigits la = true ∧ fb ≠ '(' ∧ (fb = '.' ∨ regexAlphaUnderscore fb = true)) ∨
     (la = '-' ∧ fb = '-') ∨
     (la = '.' ∧ a.data.dropLast.getLast? ≠ some '.' ∧ regexAlphaNumUnderscore fb = true))

/-! ## Keywords and the identifier alphabet (part_003 lines 36–157) -/

/-- part_003 `isKeyword(id)`: a `switch` on the length with no default case. -/
def isKeyword (id : String) : Bool :=
  match id.length with
  | 2 => "do" == id || "if" == id || "in" == id || "or" == id
  | 3 => "and" == id || "end" == id || "for" == id || "nil" == id || "not" == id
  | 4 => "else" == id || "goto" == id || "then" == id || "true" == id
  | 5 => "break" == id || "false" == id || "local" == id || "until" == id || "while" == id
  | 6 => "elseif" == id || "repeat" == id || "return" == id
  | 8 => "function" == id
  | _ => false

/-- The full keyword list recognised by `isKeyword`, for reasoning. -/
def luaKeywordList : List String :=
  ["do", "if", "in", "or", "and", "end", "for", "nil", "not",
   "else", "goto", "then", "true", "break", "false", "local", "until", "while",
   "elseif", "repeat", "return", "function"]

/-- part_003 `IDENTIFIER_PARTS` (the source lists these 63 symbols one
character at a time): the digits 0–9, the lowercase letters, the uppercase
letters, and the underscore, in that order. -/
def IDENTIFIER_PARTS : List Char :=
  "0123456789abcdefghijklmnopqrstuvwxyzABCDEFGHIJKLMNOPQRSTUVWXYZ_".data

/-- The inner loop of part_003 `generateZeroes(length)`: builds the result by
binary doubling of the `zero` block.  (The source skips the final doubling of
`zero` when the shifted length is zero; doubling unconditionally produces the
same output.) -/
def genZeroesLoop (len : Nat) (zero acc : List Char) : List Char :=
  if len = 0 then acc
  else
    genZeroesLoop (len / 2) (zero ++ zero)
      (if len % 2 = 1 then acc ++ zero else acc)
termination_by len
decreasing_by exact Nat.div_lt_self (Nat.pos_of_ne_zero (by assumption)) (by omega)

/-- part_003 `generateZeroes(length)`: a string of `length` zero characters. -/
def generateZeroes (length : Nat) : List Char :=
  if length < 1 then []
  else if length = 1 then ['0']
  else genZeroesLoop length ['0'] []

theorem genZeroesLoop_eq (len : Nat) :
    ∀ m acc, genZeroesLoop len (List.replicate m '0') acc
      = acc ++ List.replicate (len * m) '0' := by
  induction len using Nat.strong_induction_on with
  | _ len ih =>
    intro m acc
    rw [genZeroesLoop]
    by_cases h : len = 0
    · simp [h]
    · simp only [h, if_neg h, reduceIte]
      rw [show List.replicate m '0' ++ List.replicate m '0'
            = List.replicate (m + m) '0' by rw [List.replicate_add]]
      rw [ih (len / 2) (Nat.div_lt_self (Nat.pos_of_ne_zero h) (by omega)) (m + m)]
      set q := len / 2 with hq
      have hdm := Nat.div_add_mod len 2
      by_cases hp : len % 2 = 1
      · simp only [hp, reduceIte]
        rw [List.append_assoc, ← List.replicate_add]
        congr 2
        rw [hp] at hdm
        rw [← hdm]
        ring
      · simp only [hp, reduceIte]
        congr 2
        have hp0 : len % 2 = 0 := by omega
        rw [hp0] at hdm
        rw [← hdm]
        ring

theorem generateZeroes_eq (n : Nat) : generateZeroes n = List.replicate n '0' := by
  unfold generateZeroes
  by_cases h0 : n < 1
  · simp [h0, show n = 0 by omega]
  · by_cases h1 : n = 1
    · simp [h1, h0]
    · simp only [h0, h1, reduceIte]
      have := genZeroesLoop_eq n 1 []
      simpa using this

theorem alphaUnd_not_digit (c : Char) (h : regexAlphaUnderscore c = true) :
    regexDigits c = false := by
  unfold regexAlphaUnderscore at h
  unfold regexDigits
  simp only [Bool.or_eq_true, Bool.and_eq_true, decide_eq_true_eq, beq_iff_eq,
    Bool.and_eq_false_iff, Bool.not_eq_true, decide_eq_false_iff_not] at h ⊢
  omega

/-- Claim C3: `isNeedSeparator` returns `true` exactly in the four
character-class cases listed by the claim, and `false` whenever either side
is empty. -/
theorem C3_separator_rule : ∀ a b : String,
    (isNeedSeparator a b = true ↔ separatorClaim a b) ∧
    (a = "" → isNeedSeparator a b = false) ∧
    (b = "" → isNeedSeparator a b = false) := by
  intro a b
  refine ⟨?_, ?_, ?_⟩
  · rcases ha : a.data.getLast? with _ | la <;> rcases hb : b.data.head? with _ | fb
    · simp [isNeedSeparator, separatorClaim, ha, hb]
    · simp [isNeedSeparator, separatorClaim, ha, hb]
    · simp [isNeedSeparator, separatorClaim, ha, hb]
    · simp only [isNeedSeparator, separatorClaim, ha, hb, Option.some.injEq]
      by_cases h1 : regexAlphaUnderscore la = true
      · have h2 : regexDigits la = false := alphaUnd_not_digit la h1
        have h3 : la ≠ '-' := by
          intro e
          subst e
          revert h1
          decide
        have h4 : la ≠ '.' := by
          intro e
          subst e
          revert h1
          decide
        simp [h1, h2, h3, h4]
      · by_cases h2 : regexDigits la = true
        · have h3 : la ≠ '-' := by
            intro e
            subst e
            revert h2
            decide
          have h4 : la ≠ '.' := by
            intro e
            subst e
            revert h2
            decide
          simp only [Bool.not_eq_true] at h1
          simp [h1, h2, h3, h4]
        · by_cases h3 : la = '-'
          · subst h3
            simp only [Bool.not_eq_true] at h1 h2
            simp [h1, h2]
            exact eq_comm
          · by_cases h4 : la = '.'
            · subst h4
              simp only [Bool.not_eq_true] at h1 h2
              simp [h1, h2, h3]
            · simp only [Bool.not_eq_true] at h1 h2
              simp [h1, h2, h3, h4]
  · intro h
    subst h
    rcases hb : b.data.head? with _ | fb <;> simp [isNeedSeparator, hb]
  · intro h
    subst h
    rcases ha : a.data.getLast? with _ | la <;> simp [isNeedSeparator, ha]

/-- Witness for C3 at a concrete input: the empty-side clause at `a = ""`. -/
theorem C3_separator_rule_witness : isNeedSeparator "" "x" = false :=
  (C3_separator_rule "" "x").2.1 rfl

/-! ## Identifier generator (part_003 lines 102–103 and 724–770)

`Minifier.generateIdentifier` scans `currentIdentifier` from its rightmost
position for a character that is not the last alphabet symbol, advances it and
zero-fills everything to its right; when every position is at the last symbol
(or the string is empty) it grows to `"a"` followed by zeroes.  The scan is
modelled by structural recursion over the reversed character list. -/

/-- `IDENTIFIER_PARTS.indexOf(character)` from the advancing loop. -/
def partIndex (c : Char) : Nat :=
  IDENTIFIER_PARTS.indexOf c

/-- One pass of the `while (position >= 0)` loop of `generateIdentifier`,
on the reversed character list: the head is the rightmost position.  Returns
`none` when every position already holds the last alphabet symbol, i.e. when
the loop falls through. -/
def advanceRev : List Char → Option (List Char)
  | [] => none
  | c :: rest =>
    if partIndex c ≠ IDENTIFIER_PARTS.length - 1 then
      some (IDENTIFIER_PARTS.getD (partIndex c + 1) '0' :: rest)
    else
      (advanceRev rest).map (fun r => '0' :: r)

/-- The loop of `generateIdentifier` acting on `currentIdentifier` in normal
character order. -/
def advance (cur : List Char) : Option (List Char) :=
  (advanceRev cur.reverse).map List.reverse

/-- The candidate search of `generateIdentifier`: repeatedly advance (or grow)
`currentIdentifier`, skipping candidates that are keywords or already in use
(the grown `"a"... ` candidate is, as in the source, only checked against the
in-use set), until a free candidate is found.  The self-recursion of the
source is bounded here by explicit fuel. -/
def generateFresh (identifiersInUse : List String) : Nat → List Char → Option (List Char)
  | 0, _ => none
  | fuel + 1, currentIdentifier =>
    match advance currentIdentifier with
    | some next =>
      if isKeyword (String.mk next) || identifiersInUse.contains (String.mk next) then
        generateFresh identifiersInUse fuel next
      else
        some next
    | none =>
      let next := 'a' :: generateZeroes currentIdentifier.length
      if identifiersInUse.contains (String.mk next) then
        generateFresh identifiersInUse fuel next
      else
        some next

/-- The identifier-rename state of one part_003 `Minifier`: the odometer
`currentIdentifier`, the memo map `identifierMap` (newest entry first) and the
reserved set `identifiersInUse`. -/
structure GenState where
  currentIdentifier : List Char
  identifierMap : List (String × String)
  identifiersInUse : List String
deriving DecidableEq, Repr

/-- State after the part_003 constructor: empty map, empty odometer, and the
parser-reported free/global names added to `identifiersInUse`. -/
def initState (globals : List String) : GenState :=
  { currentIdentifier := [], identifierMap := [], identifiersInUse := globals }

/-- part_003 `Minifier.generateIdentifier(nameItem)`: `self` is never renamed;
a memoized name returns its stored short name; otherwise the next free
candidate is assigned, stored in `identifierMap`, and returned. -/
def generateIdentifier (fuel : Nat) (name : String) (st : GenState) :
    Option String × GenState :=
  if name == "self" then
    (some "self", st)
  else
    match st.identifierMap.lookup name with
    | some defined => (some defined, st)
    | none =>
      match generateFresh st.identifiersInUse fuel st.currentIdentifier with
      | some next =>
        (some (String.mk next),
          { st with
            currentIdentifier := next,
            identifierMap := (name, String.mk next) :: st.identifierMap })
      | none => (none, st)

/-- One run of the generator over a sequence of original identifier names. -/
def runNames (fuel : Nat) (names : List String) (st : GenState) : GenState :=
  names.foldl (fun s n => (generateIdentifier fuel n s).2) st

example :
    (runNames 5 ["x", "y"] (initState ["a"])).identifierMap.lookup "x" = some "b" := by
  decide

/-! ## Ranking the odometer

`rankRev` interprets a reversed character list as a bijective base-63 numeral
(least significant character first).  Each advancing step of the generator
strictly increases the rank, which yields collision-freedom. -/

/-- Rank of a reversed identifier character list. -/
def rankRev : List Char → Nat
  | [] => 0
  | c :: rest => (partIndex c + 1) + 63 * rankRev rest

/-- Rank of an identifier in normal character order. -/
def identRank (l : List Char) : Nat := rankRev l.reverse

/-- All characters come from the generation alphabet. -/
def validIdent (l : List Char) : Prop := ∀ c ∈ l, c ∈ IDENTIFIER_PARTS

/-- The first character, if any, sits at alphabet position 10 or later,
i.e. past the digits 0–9. -/
def headOk (l : List Char) : Prop := ∀ c, l.head? = some c → 10 ≤ partIndex c

theorem partIndex_lt_of_mem {c : Char} (h : c ∈ IDENTIFIER_PARTS) : partIndex c < 63 :=
  List.indexOf_lt_length.mpr h

theorem partIndex_getD : ∀ i, i < 63 → partIndex (IDENTIFIER_PARTS.getD i '0') = i := by
  decide

theorem getD_mem_parts : ∀ i, i < 63 → IDENTIFIER_PARTS.getD i '0' ∈ IDENTIFIER_PARTS := by
  decide

theorem advanceRev_some_ne_nil : ∀ {ds out : List Char},
    advanceRev ds = some out → out ≠ [] := by
  intro ds out he
  cases ds with
  | nil => simp [advanceRev] at he
  | cons c rest =>
    simp only [advanceRev] at he
    split at he
    · obtain rfl := Option.some.inj he
      simp
    · obtain ⟨r, _, rfl⟩ := Option.map_eq_some'.mp he
      simp

theorem advanceRev_valid : ∀ {ds out : List Char},
    (∀ c ∈ ds, c ∈ IDENTIFIER_PARTS) → advanceRev ds = some out →
    ∀ c ∈ out, c ∈ IDENTIFIER_PARTS := by
  intro ds
  induction ds with
  | nil => intro out _ he; simp [advanceRev] at he
  | cons c rest ih =>
    intro out hv he
    simp only [advanceRev] at he
    split at he
    · rename_i hcond
      obtain rfl := Option.some.inj he
      intro d hd
      rcases List.mem_cons.mp hd with rfl | hd
      · have hc : partIndex c < 63 := partIndex_lt_of_mem (hv c (by simp))
        have hlen : IDENTIFIER_PARTS.length = 63 := rfl
        exact getD_mem_parts _ (by omega)
      · exact hv d (List.mem_cons_of_mem _ hd)
    · obtain ⟨r, hr, rfl⟩ := Option.map_eq_some'.mp he
      intro d hd
      rcases List.mem_cons.mp hd with rfl | hd
      · decide
      · exact ih (fun e het => hv e (List.mem_cons_of_mem _ het)) hr d hd

theorem advanceRev_rank : ∀ {ds out : List Char},
    (∀ c ∈ ds, c ∈ IDENTIFIER_PARTS) → advanceRev ds = some out →
    rankRev out = rankRev ds + 1 := by
  intro ds
  induction ds with
  | nil => intro out _ he; simp [advanceRev] at he
  | cons c rest ih =>
    intro out hv he
    simp only [advanceRev] at he
    split at he
    · obtain rfl := Option.some.inj he
      have hc : partIndex c < 63 := partIndex_lt_of_mem (hv c (by simp))
      have hne : partIndex c ≠ 62 := by
        rename_i hcond
        have hlen : IDENTIFIER_PARTS.length = 63 := rfl
        omega
      simp only [rankRev, partIndex_getD (partIndex c + 1) (by omega)]
      omega
    · obtain ⟨r, hr, rfl⟩ := Option.map_eq_some'.mp he
      have h62 : partIndex c = 62 := by
        rename_i hcond
        have hlen : IDENTIFIER_PARTS.length = 63 := rfl
        omega
      have hrank := ih (fun e het => hv e (List.mem_cons_of_mem _ het)) hr
      simp only [rankRev, hrank, h62, show partIndex '0' = 0 by decide]
      omega

theorem advanceRev_none : ∀ {ds : List Char},
    advanceRev ds = none → ∀ c ∈ ds, partIndex c = 62 := by
  intro ds
  induction ds with
  | nil => intro _ c hc; simp at hc
  | cons c rest ih =>
    intro he d hd
    simp only [advanceRev] at he
    split at he
    · simp at he
    · rename_i hcond
      have h62 : partIndex c = 62 := by
        have hlen : IDENTIFIER_PARTS.length = 63 := rfl
        omega
      rcases List.mem_cons.mp hd with rfl | hd
      · exact h62
      · exact ih (Option.map_eq_none'.mp he) d hd

theorem advanceRev_getLast : ∀ {ds out : List Char},
    (∀ c ∈ ds, c ∈ IDENTIFIER_PARTS) →
    (∀ c, ds.getLast? = some c → 10 ≤ partIndex c) →
    advanceRev ds = some out →
    ∀ c, out.getLast? = some c → 10 ≤ partIndex c := by
  intro ds
  induction ds with
  | nil => intro out _ _ he; simp [advanceRev] at he
  | cons c rest ih =>
    intro out hv hl he
    simp only [advanceRev] at he
    split at he
    · rename_i hcond
      obtain rfl := Option.some.inj he
      cases rest with
      | nil =>
        intro d hd
        simp only [List.getLast?_singleton, Option.some.injEq] at hd
        subst hd
        have hc : partIndex c < 63 := partIndex_lt_of_mem (hv c (by simp))
        have h10 : 10 ≤ partIndex c := hl c (by simp)
        have hlen : IDENTIFIER_PARTS.length = 63 := rfl
        rw [partIndex_getD (partIndex c + 1) (by omega)]
        omega
      | cons e rest' =>
        intro d hd
        rw [List.getLast?_cons_cons] at hd
        exact hl d (by rw [List.getLast?_cons_cons]; exact hd)
    · obtain ⟨r, hr, rfl⟩ := Option.map_eq_some'.mp he
      have hrne : r ≠ [] := advanceRev_some_ne_nil hr
      intro d hd
      cases rest with
      | nil => simp [advanceRev] at hr
      | cons e rest' =>
        have hlast : ('0' :: r).getLast? = r.getLast? := by
          cases r with
          | nil => exact absurd rfl hrne
          | cons f r' => rw [List.getLast?_cons_cons]
        rw [hlast] at hd
        exact ih (fun x hx => hv x (List.mem_cons_of_mem _ hx))
          (fun x hx => hl x (by rw [List.getLast?_cons_cons]; exact hx)) hr d hd

theorem rank_grow : ∀ (ds : List Char), (∀ c ∈ ds, partIndex c = 62) →
    rankRev ds < rankRev (List.replicate ds.length '0' ++ ['a']) := by
  intro ds
  induction ds with
  | nil => decide
  | cons c rest ih =>
    intro h62
    have hc : partIndex c = 62 := h62 c (by simp)
    have ih' := ih (fun d hd => h62 d (List.mem_cons_of_mem _ hd))
    simp only [rankRev, List.length_cons, List.replicate_succ, List.cons_append,
      List.append_eq, show partIndex '0' = 0 by decide, hc]
    simp only [List.append_eq] at ih'
    omega

theorem grow_not_keyword (n : Nat) :
    isKeyword (String.mk ('a' :: generateZeroes n)) = false := by
  have hlen : (String.mk ('a' :: generateZeroes n)).length = n + 1 := by
    simp [String.length, generateZeroes_eq]
  unfold isKeyword
  split
  all_goals try rfl
  -- only the length-3 branch survives: every other keyword group already
  -- differs from the candidate in its first character
  all_goals rename_i heq
  all_goals rw [hlen] at heq
  obtain rfl : n = 2 := by omega
  rw [generateZeroes_eq]
  decide

/-! Normal-order consequences of one advancing/growing step. -/

theorem advance_facts {cur nxt : List Char}
    (hv : validIdent cur) (hh : headOk cur) (he : advance cur = some nxt) :
    validIdent nxt ∧ headOk nxt ∧ identRank nxt = identRank cur + 1 ∧ nxt ≠ [] := by
  obtain ⟨r, hr, rfl⟩ := Option.map_eq_some'.mp he
  have hvr : ∀ c ∈ cur.reverse, c ∈ IDENTIFIER_PARTS := by
    intro c hc
    exact hv c (List.mem_reverse.mp hc)
  have hlr : ∀ c, cur.reverse.getLast? = some c → 10 ≤ partIndex c := by
    intro c hc
    rw [List.getLast?_reverse] at hc
    exact hh c hc
  refine ⟨?_, ?_, ?_, ?_⟩
  · intro c hc
    exact advanceRev_valid hvr hr c (List.mem_reverse.mp hc)
  · intro c hc
    rw [← List.getLast?_reverse, List.reverse_reverse] at hc
    exact advanceRev_getLast hvr hlr hr c hc
  · unfold identRank
    rw [List.reverse_reverse]
    exact advanceRev_rank hvr hr
  · intro hnil
    exact advanceRev_some_ne_nil hr (by simpa using congrArg List.reverse hnil)

theorem grow_facts {cur : List Char} (he : advance cur = none) :
    validIdent ('a' :: generateZeroes cur.length) ∧
    headOk ('a' :: generateZeroes cur.length) ∧
    identRank cur < identRank ('a' :: generateZeroes cur.length) := by
  have h62 : ∀ c ∈ cur.reverse, partIndex c = 62 := by
    intro c hc
    exact advanceRev_none (Option.map_eq_none'.mp he) c hc
  refine ⟨?_, ?_, ?_⟩
  · intro c hc
    rw [generateZeroes_eq] at hc
    rcases List.mem_cons.mp hc with rfl | hc
    · decide
    · rw [List.eq_of_mem_replicate hc]
      decide
  · intro c hc
    simp only [List.head?_cons, Option.some.injEq] at hc
    subst hc
    decide
  · unfold identRank
    have hrw : ('a' :: generateZeroes cur.length).reverse
        = List.replicate cur.reverse.length '0' ++ ['a'] := by
      rw [generateZeroes_eq, List.reverse_cons, List.length_reverse,
        List.reverse_replicate]
    rw [hrw]
    exact rank_grow cur.reverse h62

theorem generateFresh_spec (inUse : List String) :
    ∀ (fuel : Nat) (cur out : List Char),
      generateFresh inUse fuel cur = some out →
      validIdent cur → headOk cur →
      validIdent out ∧ headOk out ∧ identRank cur < identRank out ∧
        isKeyword (String.mk out) = false ∧
        inUse.contains (String.mk out) = false ∧ out ≠ [] := by
  intro fuel
  induction fuel with
  | zero => intro cur out he; simp [generateFresh] at he
  | succ f ih =>
    intro cur out he hv hh
    simp only [generateFresh] at he
    split at he
    · rename_i nxt hadv
      obtain ⟨hvn, hhn, hrn, hnn⟩ := advance_facts hv hh hadv
      split at he
      · obtain ⟨a1, a2, a3, a4, a5, a6⟩ := ih nxt out he hvn hhn
        exact ⟨a1, a2, by omega, a4, a5, a6⟩
      · rename_i hcond
        obtain rfl := Option.some.inj he
        simp only [Bool.or_eq_true, not_or, Bool.not_eq_true] at hcond
        exact ⟨hvn, hhn, by omega, hcond.1, hcond.2, hnn⟩
    · rename_i hadv
      obtain ⟨g1, g2, g3⟩ := grow_facts hadv
      split at he
      · obtain ⟨a1, a2, a3, a4, a5, a6⟩ := ih _ out he g1 g2
        exact ⟨a1, a2, by omega, a4, a5, a6⟩
      · rename_i hcond
        obtain rfl := Option.some.inj he
        simp only [Bool.not_eq_true] at hcond
        exact ⟨g1, g2, g3, grow_not_keyword cur.length, hcond, by simp⟩

/-! ## The run invariant of the identifier generator -/

/-- The short names assigned so far (newest first). -/
def identValues (st : GenState) : List String := st.identifierMap.map Prod.snd

/-- Invariant maintained by every `generateIdentifier` call within one run:
the odometer is well-formed, and every assigned short name is keyword-free,
not in use, well-formed, nonempty, and ranked no higher than the odometer,
with ranks strictly decreasing from newest to oldest assignment. -/
def StInv (inUse : List String) (st : GenState) : Prop :=
  validIdent st.currentIdentifier ∧ headOk st.currentIdentifier ∧
  st.identifiersInUse = inUse ∧
  (∀ v ∈ identValues st,
     isKeyword v = false ∧ v ∉ inUse ∧ validIdent v.data ∧ headOk v.data ∧
     v ≠ "" ∧ identRank v.data ≤ identRank st.currentIdentifier) ∧
  (identValues st).Pairwise (fun x y => identRank y.data < identRank x.data)

theorem stInv_init (inUse : List String) : StInv inUse (initState inUse) := by
  refine ⟨?_, ?_, rfl, ?_, ?_⟩
  · intro c hc
    simp [initState] at hc
  · intro c hc
    simp [initState] at hc
  · intro v hv
    simp [identValues, initState] at hv
  · simp [identValues, initState]

theorem stInv_step (inUse : List String) (fuel : Nat) (name : String) (st : GenState)
    (h : StInv inUse st) : StInv inUse (generateIdentifier fuel name st).2 := by
  unfold generateIdentifier
  split
  · exact h
  · split
    · exact h
    · split
      · rename_i next hgf
        obtain ⟨hvc, hhc, hiu, hvals, hpw⟩ := h
        obtain ⟨vn, hn, rgt, kw, cont, nn⟩ :=
          generateFresh_spec inUse fuel st.currentIdentifier next (hiu ▸ hgf) hvc hhc
        have hnotmem : String.mk next ∉ inUse := by simpa using cont
        refine ⟨vn, hn, hiu, ?_, ?_⟩
        · intro v hv
          simp only [identValues, List.map_cons, List.mem_cons] at hv
          rcases hv with rfl | hv
          · exact ⟨kw, hnotmem, vn, hn, fun e => nn (congrArg String.data e), le_refl _⟩
          · obtain ⟨b1, b2, b3, b4, b5, b6⟩ := hvals v hv
            refine ⟨b1, b2, b3, b4, b5, ?_⟩
            show identRank v.data ≤ identRank next
            omega
        · simp only [identValues, List.map_cons]
          rw [List.pairwise_cons]
          refine ⟨?_, hpw⟩
          intro v hv
          obtain ⟨_, _, _, _, _, b6⟩ := hvals v hv
          show identRank v.data < identRank next
          omega
      · exact h

theorem stInv_run (inUse : List String) (fuel : Nat) (names : List String) :
    ∀ st, StInv inUse st → StInv inUse (runNames fuel names st) := by
  induction names with
  | nil => intro st h; exact h
  | cons n ns ih =>
    intro st h
    show StInv inUse (runNames fuel ns (generateIdentifier fuel n st).2)
    exact ih _ (stInv_step inUse fuel n st h)

theorem parts_ge10_letter : ∀ c ∈ IDENTIFIER_PARTS, 10 ≤ partIndex c →
    ((c.isLower = true ∨ c.isUpper = true ∨ c = '_') ∧ c.isDigit = false) := by
  decide

/-- Claim C2: within one run, assigned short names are pairwise distinct,
none is a Lua keyword and none collides with the in-use set; moreover, with a
pre-existing global `a`, the first two distinct identifiers become `b` and
`c`. -/
theorem C2_collision_free :
    (∀ (inUse names : List String) (fuel : Nat) (v : String),
        v ∈ identValues (runNames fuel names (initState inUse)) →
        isKeyword v = false ∧ v ∉ inUse) ∧
    (∀ (inUse names : List String) (fuel : Nat),
        (identValues (runNames fuel names (initState inUse))).Pairwise (· ≠ ·)) ∧
    ((runNames 5 ["x", "y"] (initState ["a"])).identifierMap.lookup "x" = some "b" ∧
     (runNames 5 ["x", "y"] (initState ["a"])).identifierMap.lookup "y" = some "c") := by
  refine ⟨?_, ?_, by decide, by decide⟩
  · intro inUse names fuel v hv
    obtain ⟨_, _, _, hvals, _⟩ := stInv_run inUse fuel names _ (stInv_init inUse)
    obtain ⟨b1, b2, _⟩ := hvals v hv
    exact ⟨b1, b2⟩
  · intro inUse names fuel
    obtain ⟨_, _, _, _, hpw⟩ := stInv_run inUse fuel names _ (stInv_init inUse)
    refine hpw.imp ?_
    intro x y hlt he
    subst he
    omega

/-- Witness for C2: the short name `b` assigned in the scenario run is not a
keyword and avoids the in-use global `a`. -/
theorem C2_collision_free_witness : isKeyword "b" = false ∧ "b" ∉ ["a"] :=
  C2_collision_free.1 ["a"] ["x", "y"] 5 "b" (by decide)

/-- Claim C10: every short name assigned by the generator starts with a
lowercase letter, an uppercase letter or an underscore — never a digit. -/
theorem C10_first_char_not_digit :
    ∀ (inUse names : List String) (fuel : Nat) (v : String),
      v ∈ identValues (runNames fuel names (initState inUse)) →
      ∃ c rest, v.data = c :: rest ∧
        (c.isLower = true ∨ c.isUpper = true ∨ c = '_') ∧ c.isDigit = false := by
  intro inUse names fuel v hv
  obtain ⟨_, _, _, hvals, _⟩ := stInv_run inUse fuel names _ (stInv_init inUse)
  obtain ⟨_, _, b3, b4, b5, _⟩ := hvals v hv
  cases hd : v.data with
  | nil =>
    exact absurd (String.ext hd) b5
  | cons c rest =>
    have hc10 : 10 ≤ partIndex c := b4 c (by rw [hd]; rfl)
    have hcmem : c ∈ IDENTIFIER_PARTS := b3 c (by rw [hd]; exact List.mem_cons_self _ _)
    exact ⟨c, rest, rfl, parts_ge10_letter c hcmem hc10⟩

/-- Witness for C10: the first assigned name of a small run starts with the
letter `a`. -/
theorem C10_first_char_not_digit_witness :
    ∃ c rest, ("a" : String).data = c :: rest ∧
      (c.isLower = true ∨ c.isUpper = true ∨ c = '_') ∧ c.isDigit = false :=
  C10_first_char_not_digit [] ["x"] 5 "a" (by decide)

/-! ## Memoization of the rename map (claim C4) -/

theorem gen_preserves_lookup (fuel : Nat) (n : String) (st : GenState)
    (name s : String) (h : st.identifierMap.lookup name = some s) :
    ((generateIdentifier fuel n st).2).identifierMap.lookup name = some s := by
  unfold generateIdentifier
  split
  · exact h
  · split
    · exact h
    · split
      · rename_i next hgf
        have hlooknone : List.lookup n st.identifierMap = none := by assumption
        have hne : (name == n) = false := by
          rw [beq_eq_false_iff_ne]
          intro e
          subst e
          rw [h] at hlooknone
          exact Option.noConfusion hlooknone
        show List.lookup name ((n, String.mk next) :: st.identifierMap) = some s
        simp only [List.lookup, hne]
        exact h
      · exact h

theorem runNames_preserves_lookup (fuel : Nat) (others : List String)
    (name s : String) :
    ∀ st : GenState, st.identifierMap.lookup name = some s →
      ((runNames fuel others st).identifierMap).lookup name = some s := by
  induction others with
  | nil => intro st h; exact h
  | cons n ns ih =>
    intro st h
    exact ih _ (gen_preserves_lookup fuel n st name s h)

theorem gen_ret_of_lookup (fuel : Nat) (name : String) (st : GenState) (s : String)
    (hns : (name == "self") = false)
    (h : st.identifierMap.lookup name = some s) :
    generateIdentifier fuel name st = (some s, st) := by
  unfold generateIdentifier
  rw [hns]
  simp only [Bool.false_eq_true, reduceIte, h]

/-- Claim C4: within one run the generator is memoized — after a first call
assigned `s` to `name`, every later call for `name` (after any interleaved
calls for other names) returns exactly `s` and leaves the state unchanged. -/
theorem C4_rename_memoized :
    ∀ (fuel₁ fuel₂ fuel₃ : Nat) (name : String) (st st' : GenState) (s : String)
      (others : List String),
      generateIdentifier fuel₁ name st = (some s, st') →
      generateIdentifier fuel₂ name (runNames fuel₃ others st') =
        (some s, runNames fuel₃ others st') := by
  intro fuel₁ fuel₂ fuel₃ name st st' s others h
  by_cases hself : name = "self"
  · subst hself
    have hs : s = "self" := by
      unfold generateIdentifier at h
      simp only [beq_self_eq_true, reduceIte, Prod.mk.injEq, Option.some.injEq] at h
      exact h.1.symm
    subst hs
    unfold generateIdentifier
    simp
  · have hnsb : (name == "self") = false := beq_eq_false_iff_ne.mpr hself
    have hlook : st'.identifierMap.lookup name = some s := by
      unfold generateIdentifier at h
      rw [hnsb] at h
      simp only [Bool.false_eq_true, reduceIte] at h
      split at h
      · rename_i defined hdef
        obtain ⟨h1, h2⟩ := Prod.mk.injEq .. |>.mp h
        obtain rfl := Option.some.inj h1
        rw [← h2]
        exact hdef
      · split at h
        · rename_i next hgf
          obtain ⟨h1, h2⟩ := Prod.mk.injEq .. |>.mp h
          obtain rfl := Option.some.inj h1
          rw [← h2]
          show List.lookup name ((name, String.mk next) :: st.identifierMap) = _
          simp [List.lookup]
        · exact absurd (Prod.mk.injEq .. |>.mp h).1 (by simp)
    exact gen_ret_of_lookup fuel₂ name _ s hnsb
      (runNames_preserves_lookup fuel₃ others name s st' hlook)

/-- Witness for C4: after `x` is assigned `a` in a fresh run, a later call for
`x` (after renaming `y` and `z` in between) still returns `a`. -/
theorem C4_rename_memoized_witness :
    generateIdentifier 5 "x"
        (runNames 5 ["y", "z"] (generateIdentifier 5 "x" (initState [])).2) =
      (some "a", runNames 5 ["y", "z"] (generateIdentifier 5 "x" (initState [])).2) :=
  C4_rename_memoized 5 5 5 "x" (initState []) _ "a" ["y", "z"] (by decide)

/-! ## Module resolver (part_000 `Minifier.parseModule`, lines 84–113)

A module AST is abstracted to its parser-reported `globals` field (absent when
`"globals" in ast` fails) plus an opaque body; the parse-and-print pass
(`new MinifyFile(...).parse(...)`) is a parameter `process`.  The JavaScript
`Map` `moduleSourceNode` is an association list, a thrown
`Error(moduleName + " is not found")` is `none`, and the returned `Bool`
records whether this call ran a parse/print pass. -/

structure ModAst where
  globals : Option (List String)
  body : String
deriving DecidableEq

structure ResolverState where
  moduleSourceNode : List (String × String)
  identifiersInUse : List String
deriving DecidableEq

/-- part_000 `parseModule(moduleName)`: return the cached fragment if present;
otherwise, if the module file exists and its AST carries a `globals` report,
record the globals, run one parse/print pass, cache and return it; otherwise
throw. -/
def parseModule (fsys : String → Option ModAst) (process : ModAst → String)
    (st : ResolverState) (moduleName : String) :
    Option String × ResolverState × Bool :=
  match st.moduleSourceNode.lookup moduleName with
  | some res => (some res, st, false)
  | none =>
    match fsys moduleName with
    | some ast =>
      match ast.globals with
      | some gs =>
        let sourceNode := process ast
        (some sourceNode,
         { moduleSourceNode := (moduleName, sourceNode) :: st.moduleSourceNode,
           identifiersInUse := st.identifiersInUse ++ gs }, true)
      | none => (none, st, false)
    | none => (none, st, false)

/-- A sequence of resolution requests in one run, logging for each request
whether a parse/print pass was executed. -/
def runRequests (fsys : String → Option ModAst) (process : ModAst → String) :
    List String → ResolverState → ResolverState × List (String × Bool)
  | [], st => (st, [])
  | m :: ms, st =>
    let r := parseModule fsys process st m
    let rest := runRequests fsys process ms r.2.1
    (rest.1, (m, r.2.2) :: rest.2)

/-- Number of parse/print passes run for module `m` in a request log. -/
def passCount (m : String) (log : List (String × Bool)) : Nat :=
  (log.filter (fun e => e.1 == m && e.2)).length

/-- part_000 lines 53–57: the module-like dispatcher prepends one static
`if m=="<name>"then ... end` branch for every cached module other than the
entry module. -/
def dispatcherBranches (st : ResolverState) (entryModule : String) : List String :=
  st.moduleSourceNode.foldl
    (fun acc kv => if kv.1 ≠ entryModule then kv.1 :: acc else acc) []

theorem lookup_none_not_mem {α β : Type} [BEq α] [LawfulBEq α] {a : α}
    {l : List (α × β)} (h : l.lookup a = none) : a ∉ l.map Prod.fst := by
  induction l with
  | nil => simp
  | cons kv rest ih =>
    obtain ⟨k, v⟩ := kv
    simp only [List.lookup] at h
    cases hbeq : a == k with
    | true =>
      rw [hbeq] at h
      exact Option.noConfusion h
    | false =>
      rw [hbeq] at h
      simp only [List.map_cons, List.mem_cons, not_or]
      exact ⟨beq_eq_false_iff_ne.mp hbeq, ih h⟩

theorem lookup_some_mem {α β : Type} [BEq α] [LawfulBEq α] {a : α} {b : β}
    {l : List (α × β)} (h : l.lookup a = some b) : a ∈ l.map Prod.fst := by
  induction l with
  | nil => simp [List.lookup] at h
  | cons kv rest ih =>
    obtain ⟨k, v⟩ := kv
    simp only [List.lookup] at h
    cases hbeq : a == k with
    | true =>
      simp only [List.map_cons, List.mem_cons]
      exact Or.inl (by simpa using hbeq)
    | false =>
      rw [hbeq] at h
      exact List.mem_cons_of_mem _ (ih h)

theorem parseModule_cached {fsys : String → Option ModAst} {process : ModAst → String}
    {st : ResolverState} {m : String} {f : String}
    (h : st.moduleSourceNode.lookup m = some f) :
    parseModule fsys process st m = (some f, st, false) := by
  unfold parseModule
  rw [h]

theorem parseModule_shape (fsys : String → Option ModAst) (process : ModAst → String)
    (st : ResolverState) (m : String) :
    (parseModule fsys process st m).2.2 = false ∧ (parseModule fsys process st m).2.1 = st ∨
    (st.moduleSourceNode.lookup m = none ∧ (parseModule fsys process st m).2.2 = true ∧
      ∃ frag gs, (parseModule fsys process st m).2.1 =
        { moduleSourceNode := (m, frag) :: st.moduleSourceNode,
          identifiersInUse := st.identifiersInUse ++ gs } ∧
        st.moduleSourceNode.lookup m = none) := by
  cases hl : st.moduleSourceNode.lookup m with
  | some res =>
    refine Or.inl ⟨?_, ?_⟩ <;> simp [parseModule, hl]
  | none =>
    cases hf : fsys m with
    | none =>
      refine Or.inl ⟨?_, ?_⟩ <;> simp [parseModule, hl, hf]
    | some ast =>
      cases hg : ast.globals with
      | none =>
        refine Or.inl ⟨?_, ?_⟩ <;> simp [parseModule, hl, hf, hg]
      | some gs =>
        refine Or.inr ⟨rfl, ?_, process ast, gs, ?_, rfl⟩ <;> simp [parseModule, hl, hf, hg]

theorem lookup_cons_ne {α β : Type} [BEq α] [LawfulBEq α] {a k : α} (v : β)
    (l : List (α × β)) (h : a ≠ k) :
    List.lookup a ((k, v) :: l) = List.lookup a l := by
  simp only [List.lookup, beq_eq_false_iff_ne.mpr h]

theorem runRequests_cached (fsys : String → Option ModAst) (process : ModAst → String)
    (m f : String) :
    ∀ (rs : List String) (st : ResolverState),
      st.moduleSourceNode.lookup m = some f →
      (runRequests fsys process rs st).1.moduleSourceNode.lookup m = some f ∧
      passCount m (runRequests fsys process rs st).2 = 0 := by
  intro rs
  induction rs with
  | nil => intro st h; exact ⟨h, rfl⟩
  | cons r ms ih =>
    intro st h
    simp only [runRequests]
    rcases parseModule_shape fsys process st r with ⟨hp, hst⟩ | ⟨hl, hp, frag, gs, hst, _⟩
    · obtain ⟨h1, h2⟩ := ih (parseModule fsys process st r).2.1 (by rw [hst]; exact h)
      refine ⟨h1, ?_⟩
      simp only [passCount, List.filter, hp, Bool.and_false]
      exact h2
    · have hrm : r ≠ m := by
        intro e
        subst e
        rw [h] at hl
        exact Option.noConfusion hl
      have hlook : (parseModule fsys process st r).2.1.moduleSourceNode.lookup m = some f := by
        rw [hst]
        show List.lookup m ((r, frag) :: st.moduleSourceNode) = some f
        rw [lookup_cons_ne frag _ (Ne.symm hrm)]
        exact h
      obtain ⟨h1, h2⟩ := ih _ hlook
      refine ⟨h1, ?_⟩
      simp only [passCount, List.filter, hp, Bool.and_true,
        beq_eq_false_iff_ne.mpr hrm]
      exact h2

theorem runRequests_passCount (fsys : String → Option ModAst) (process : ModAst → String)
    (m : String) :
    ∀ (rs : List String) (st : ResolverState),
      passCount m (runRequests fsys process rs st).2 ≤ 1 ∨
      (st.moduleSourceNode.lookup m ≠ none ∧
        passCount m (runRequests fsys process rs st).2 = 0) := by
  intro rs
  induction rs with
  | nil =>
    intro st
    exact Or.inl (by simp [runRequests, passCount, List.filter])
  | cons r ms ih =>
    intro st
    cases hl : st.moduleSourceNode.lookup m with
    | some f =>
      obtain ⟨_, h2⟩ := runRequests_cached fsys process m f (r :: ms) st hl
      exact Or.inr ⟨by simp, h2⟩
    | none =>
      refine Or.inl ?_
      simp only [runRequests]
      by_cases hrm : r = m
      · subst hrm
        rcases parseModule_shape fsys process st r with ⟨hp, hst⟩ | ⟨_, hp, frag, gs, hst, _⟩
        · have := ih (parseModule fsys process st r).2.1
          simp only [passCount, List.filter, hp, Bool.and_false] at *
          rcases this with h | ⟨_, h⟩ <;> omega
        · have hlook : (parseModule fsys process st r).2.1.moduleSourceNode.lookup r
              = some frag := by
            rw [hst]
            show List.lookup r ((r, frag) :: st.moduleSourceNode) = some frag
            simp [List.lookup]
          obtain ⟨_, h2⟩ := runRequests_cached fsys process r frag ms _ hlook
          simp only [passCount, List.filter, hp, Bool.and_true, beq_self_eq_true,
            List.length_cons] at h2 ⊢
          omega
      · rcases parseModule_shape fsys process st r with ⟨hp, _⟩ | ⟨_, hp, frag, gs, hst, _⟩
        · have := ih (parseModule fsys process st r).2.1
          simp only [passCount, List.filter, hp, Bool.and_false] at *
          rcases this with h | ⟨_, h⟩ <;> omega
        · have := ih (parseModule fsys process st r).2.1
          simp only [passCount, List.filter, hp, Bool.and_true,
            beq_eq_false_iff_ne.mpr hrm] at *
          rcases this with h | ⟨_, h⟩ <;> omega

theorem runRequests_keys_nodup (fsys : String → Option ModAst) (process : ModAst → String) :
    ∀ (rs : List String) (st : ResolverState),
      (st.moduleSourceNode.map Prod.fst).Nodup →
      ((runRequests fsys process rs st).1.moduleSourceNode.map Prod.fst).Nodup := by
  intro rs
  induction rs with
  | nil => intro st h; exact h
  | cons r ms ih =>
    intro st h
    simp only [runRequests]
    rcases parseModule_shape fsys process st r with ⟨_, hst⟩ | ⟨hl, _, frag, gs, hst, _⟩
    · exact ih _ (by rw [hst]; exact h)
    · refine ih _ ?_
      rw [hst]
      show ((r, frag) :: st.moduleSourceNode).map Prod.fst |>.Nodup
      simp only [List.map_cons, List.nodup_cons]
      exact ⟨lookup_none_not_mem hl, h⟩

theorem dispatcherBranches_foldl (entryModule : String) :
    ∀ (l : List (String × String)) (acc : List String),
      l.foldl (fun acc kv => if kv.1 ≠ entryModule then kv.1 :: acc else acc) acc
        = ((l.map Prod.fst).filter (fun k => k ≠ entryModule)).reverse ++ acc := by
  intro l
  induction l with
  | nil => intro acc; simp
  | cons kv rest ih =>
    intro acc
    simp only [List.foldl_cons, List.map_cons]
    by_cases hk : kv.1 ≠ entryModule
    · rw [if_pos hk, ih, List.filter_cons_of_pos (by simpa using hk), List.reverse_cons]
      simp
    · rw [if_neg hk, ih, List.filter_cons_of_neg (by simpa using hk)]

/-- Claim C5: in one run, any number of resolution requests cause at most one
parse/print pass per module name; once cached, a later `parseModule` call
returns the cached fragment with the state unchanged and no pass; and every
cached non-entry module contributes exactly one static branch to the
module-like dispatcher. -/
theorem C5_module_single_pass :
    ∀ (fsys : String → Option ModAst) (process : ModAst → String)
      (requests : List String) (m entryModule : String),
      passCount m (runRequests fsys process requests ⟨[], []⟩).2 ≤ 1 ∧
      (∀ f, (runRequests fsys process requests ⟨[], []⟩).1.moduleSourceNode.lookup m = some f →
        parseModule fsys process (runRequests fsys process requests ⟨[], []⟩).1 m =
          (some f, (runRequests fsys process requests ⟨[], []⟩).1, false)) ∧
      (∀ f, (runRequests fsys process requests ⟨[], []⟩).1.moduleSourceNode.lookup m = some f →
        m ≠ entryModule →
        (dispatcherBranches (runRequests fsys process requests ⟨[], []⟩).1 entryModule).count m
          = 1) := by
  intro fsys process requests m entryModule
  refine ⟨?_, ?_, ?_⟩
  · rcases runRequests_passCount fsys process m requests ⟨[], []⟩ with h | ⟨hne, _⟩
    · exact h
    · exact absurd rfl hne
  · intro f hf
    exact parseModule_cached hf
  · intro f hf hme
    have hnodup := runRequests_keys_nodup fsys process requests ⟨[], []⟩ (by simp)
    have hmem : m ∈ (runRequests fsys process requests ⟨[], []⟩).1.moduleSourceNode.map
        Prod.fst := lookup_some_mem hf
    unfold dispatcherBranches
    rw [dispatcherBranches_foldl]
    rw [List.append_nil, List.count_reverse]
    have hmemf : m ∈ ((runRequests fsys process requests
        ⟨[], []⟩).1.moduleSourceNode.map Prod.fst).filter (fun k => k ≠ entryModule) := by
      rw [List.mem_filter]
      exact ⟨hmem, by simpa using hme⟩
    exact List.count_eq_one_of_mem (hnodup.filter _) hmemf

/-- Witness for C5: with one module `util` requested three times, the cached
fragment is returned by a later `parseModule` call without reprocessing, and
the dispatcher holds exactly one `util` branch. -/
theorem C5_module_single_pass_witness :
    parseModule (fun n => if n == "util" then some ⟨some ["g"], "B"⟩ else none)
        (fun a => a.body)
        (runRequests (fun n => if n == "util" then some ⟨some ["g"], "B"⟩ else none)
          (fun a => a.body) ["util", "util", "util"] ⟨[], []⟩).1 "util" =
      (some "B",
        (runRequests (fun n => if n == "util" then some ⟨some ["g"], "B"⟩ else none)
          (fun a => a.body) ["util", "util", "util"] ⟨[], []⟩).1, false) ∧
    (dispatcherBranches
        (runRequests (fun n => if n == "util" then some ⟨some ["g"], "B"⟩ else none)
          (fun a => a.body) ["util", "util", "util"] ⟨[], []⟩).1 "main").count "util" = 1 :=
  ⟨(C5_module_single_pass (fun n => if n == "util" then some ⟨some ["g"], "B"⟩ else none)
      (fun a => a.body) ["util", "util", "util"] "util" "main").2.1 "B" (by decide),
   (C5_module_single_pass (fun n => if n == "util" then some ⟨some ["g"], "B"⟩ else none)
      (fun a => a.body) ["util", "util", "util"] "util" "main").2.2 "B" (by decide)
      (by decide)⟩

/-! ## Entry-module comments and the module-like bootstrap
(part_000 `Minifier.parse`, lines 39–82)

A `SourceNode` under construction is modelled as the list of its text chunks;
`prepend` puts chunks at the front, and the final output is their
concatenation.  Comments carry their raw text. -/

structure SComment where
  raw : String
deriving DecidableEq

/-- Raw-text test of part_000 line 68:
`v.raw.includes("--#") || v.raw.includes("[[#")`. -/
def hasPragmaMarker (raw : String) : Bool :=
  decide ("--#".data <:+: raw.data) || decide ("[[#".data <:+: raw.data)

/-- part_000 `Minifier.parse()`: starting from the entry module body, in
module-like mode prepend the dispatcher footer, one branch per cached
non-entry module, and the `require` header; then prepend, for each pragma
comment of the reversed comment list, `[its raw text, "\n"]`. -/
def minifierParse (moduleLikeLua : Bool) (modules : List (String × String))
    (entryModule : String) (entryBody : List String)
    (comments : List SComment) : List String :=
  let sn := entryBody
  let sn :=
    if moduleLikeLua then
      let sn := "package.loaded[m]=package.loaded[m]or r or true;return package.loaded[m]end\n"
        :: sn
      let sn := modules.foldl
        (fun acc kv =>
          if kv.1 ≠ entryModule then
            ("if m==\"" ++ kv.1 ++ "\"then r=(function() " ++ kv.2 ++ " end)()end\n") :: acc
          else acc) sn
      "function require(m,r)package=package or\x7bloaded=\x7b\x7d\x7d;if package.loaded[m]then return package.loaded[m]end\n"
        :: sn
    else sn
  (comments.reverse.filter (fun v => hasPragmaMarker v.raw)).foldl
    (fun acc comment => comment.raw :: "\n" :: acc) sn

theorem foldl_prepend_comments :
    ∀ (l : List SComment) (sn : List String),
      l.reverse.foldl (fun acc comment => comment.raw :: "\n" :: acc) sn
        = l.flatMap (fun c => [c.raw, "\n"]) ++ sn := by
  intro l
  induction l with
  | nil => intro sn; simp
  | cons x xs ih =>
    intro sn
    rw [List.reverse_cons, List.foldl_append]
    simp only [List.foldl_cons, List.foldl_nil, List.flatMap_cons]
    rw [ih]
    simp

/-- Claim C6: the prepended comment block consists of exactly the pragma
comments, verbatim and in original source order (each followed by a newline),
placed ahead of everything else — the bootstrap and the body, which do not
depend on the comment list at all; comments without the marker contribute
nothing. -/
theorem C6_pragma_comments :
    ∀ (moduleLikeLua : Bool) (modules : List (String × String))
      (entryModule : String) (entryBody : List String) (comments : List SComment),
      minifierParse moduleLikeLua modules entryModule entryBody comments
        = (comments.filter (fun v => hasPragmaMarker v.raw)).flatMap
            (fun c => [c.raw, "\n"])
          ++ minifierParse moduleLikeLua modules entryModule entryBody [] := by
  intro mode modules entryModule entryBody comments
  simp only [minifierParse]
  rw [show comments.reverse.filter (fun v => hasPragmaMarker v.raw)
        = (comments.filter (fun v => hasPragmaMarker v.raw)).reverse from
      List.filter_reverse ..]
  rw [foldl_prepend_comments]
  simp

/-! ## CLI loop over input files (part_001 `luaFiles.forEach`, lines 32–56)

The `forEach` body either reports a missing path to the error stream and
continues, or runs `new Minifier(fileName, ...).parse()` and writes the two
output files.  There is no `try`/`catch`: an exception thrown by the core
(such as `Error(moduleName + " is not found")` from `parseModule`) propagates
out of the `forEach` callback and terminates the whole invocation.  The run
of one file is a parameter returning `Except`. -/

inductive CliEvent where
  | written (file : String) (out : String)
  | missingReported (file : String)
deriving DecidableEq

/-- part_001 lines 32–56, as a fold with exception propagation. -/
def luaFilesForEach (fsExists : String → Bool)
    (runOne : String → Except String String) :
    List String → Except String (List CliEvent)
  | [] => .ok []
  | fileName :: rest =>
    if fsExists fileName then
      match runOne fileName with
      | .ok out => (luaFilesForEach fsExists runOne rest).map
          (fun evs => CliEvent.written fileName out :: evs)
      | .error e => .error e
    else
      (luaFilesForEach fsExists runOne rest).map
        (fun evs => CliEvent.missingReported fileName :: evs)

/-- Events actually delivered by an invocation (none once it dies). -/
def cliEventsOf (r : Except String (List CliEvent)) : List CliEvent :=
  match r with
  | .ok evs => evs
  | .error _ => []

/-- Counterexample to claim C8 as stated: with two existing input files where
the first raises a fatal core error (`m is not found`), the whole invocation
aborts with that error and the second file is never processed — no event is
recorded for it, contradicting "the remaining input paths are still
processed". -/
theorem C8_fatal_error_aborts_all :
    luaFilesForEach (fun _ => true)
        (fun f => if f == "bad.lua" then .error "m is not found" else .ok "out")
        ["bad.lua", "good.lua"] = .error "m is not found" ∧
    CliEvent.written "good.lua" "out" ∉
      cliEventsOf (luaFilesForEach (fun _ => true)
        (fun f => if f == "bad.lua" then .error "m is not found" else .ok "out")
        ["bad.lua", "good.lua"]) :=
  ⟨rfl, fun h => List.not_mem_nil _ h⟩

/-- Claim C8 as amended: a missing input path is reported to the error stream
and the remaining paths are still processed; but a fatal core error while
processing one existing file aborts the whole multi-file invocation — the
remaining input paths are not processed. -/
theorem C8_amended_cli :
    (∀ (fsExists : String → Bool) (runOne : String → Except String String)
        (f : String) (rest : List String),
        fsExists f = false →
        luaFilesForEach fsExists runOne (f :: rest)
          = (luaFilesForEach fsExists runOne rest).map
              (fun evs => CliEvent.missingReported f :: evs)) ∧
    (∀ (fsExists : String → Bool) (runOne : String → Except String String)
        (f : String) (rest : List String) (e : String),
        fsExists f = true → runOne f = .error e →
        luaFilesForEach fsExists runOne (f :: rest) = .error e) := by
  constructor
  · intro fsExists runOne f rest h
    simp [luaFilesForEach, h]
  · intro fsExists runOne f rest e hex herr
    simp [luaFilesForEach, hex, herr]

/-- Witness for C8 (amended): both clauses at concrete inputs. -/
theorem C8_amended_cli_witness :
    luaFilesForEach (fun f => f == "there.lua") (fun _ => .ok "out")
        ["missing.lua", "there.lua"]
      = (luaFilesForEach (fun f => f == "there.lua") (fun _ => .ok "out")
          ["there.lua"]).map
          (fun evs => CliEvent.missingReported "missing.lua" :: evs) ∧
    luaFilesForEach (fun _ => true) (fun _ => .error "boom") ["a.lua", "b.lua"]
      = .error "boom" :=
  ⟨C8_amended_cli.1 (fun f => f == "there.lua") (fun _ => .ok "out")
      "missing.lua" ["there.lua"] (by decide),
   C8_amended_cli.2 (fun _ => true) (fun _ => .error "boom") "a.lua" ["b.lua"]
      "boom" rfl rfl⟩

/-! ## Rename state across independent runs (claim C9)

part_003 lines 102–103 declare `identifierMap` and `identifiersInUse` at
module level: they are created once per process and never cleared, while
`currentIdentifier` is a field of each `Minifier` instance.  `runPart003`
models constructing one part_003 `Minifier` (its constructor adds the AST's
globals to the shared set) and printing one file inside a process that
carries this shared state from run to run.  part_000's `Minifier`
constructor (lines 27–28) instead creates fresh maps per run;
`runPart000Fresh` models that architecture. -/

structure ProcState where
  identifierMap : List (String × String)
  identifiersInUse : List String
deriving DecidableEq

/-- One run of the part_003 minifier inside a shared process: fresh
per-instance `currentIdentifier`, but the process-wide map and in-use set. -/
def runPart003 (fuel : Nat) (ps : ProcState)
    (globals names : List String) : ProcState :=
  let st := runNames fuel names
    { currentIdentifier := [],
      identifierMap := ps.identifierMap,
      identifiersInUse := ps.identifiersInUse ++ globals }
  { identifierMap := st.identifierMap, identifiersInUse := st.identifiersInUse }

/-- One run under the part_000 architecture: the constructor initializes
`identifierMap` and `identifiersInUse` fresh, then the run adds its own
globals and renames its own names. -/
def runPart000Fresh (fuel : Nat) (r : List String × List String) : GenState :=
  runNames fuel r.2 (initState r.1)

/-- A whole process under the part_000 architecture: each input file gets a
freshly constructed `Minifier`, so runs only accumulate their outputs. -/
def processFilesFresh (fuel : Nat) (runs : List (List String × List String)) :
    List GenState :=
  runs.foldl (fun acc r => acc ++ [runPart000Fresh fuel r]) []

/-- Counterexample to claim C9 as stated, on the part_003 iteration: after an
unrelated earlier run renamed `x`, a later run over `x, y` assigns `y` the
short name `a` — colliding with `x`'s memoized `a` — while the same run in a
fresh process assigns `y` the name `b`.  The rename state does carry over. -/
theorem C9_state_leak_counterexample :
    (runPart003 5 (runPart003 5 ⟨[], []⟩ [] ["x"]) [] ["x", "y"]).identifierMap.lookup "y"
        = some "a" ∧
    (runPart003 5 ⟨[], []⟩ [] ["x", "y"]).identifierMap.lookup "y" = some "b" ∧
    runPart003 5 (runPart003 5 ⟨[], []⟩ [] ["x"]) [] ["x", "y"]
      ≠ runPart003 5 ⟨[], []⟩ [] ["x", "y"] := by
  refine ⟨rfl, rfl, ?_⟩
  decide

theorem processFilesFresh_foldl (fuel : Nat) :
    ∀ (runs : List (List String × List String)) (acc : List GenState),
      runs.foldl (fun acc r => acc ++ [runPart000Fresh fuel r]) acc
        = acc ++ runs.map (runPart000Fresh fuel) := by
  intro runs
  induction runs with
  | nil => intro acc; simp
  | cons r rest ih =>
    intro acc
    simp only [List.foldl_cons, List.map_cons]
    rw [ih]
    simp

/-- Claim C9 as amended (the part_000 architecture): since every run
constructs its rename state fresh, the result recorded for a run is a
function of that run's own input alone, wherever it sits in the process. -/
theorem C9_fresh_state_amended :
    ∀ (fuel : Nat) (pre post : List (List String × List String))
      (r : List String × List String),
      processFilesFresh fuel (pre ++ r :: post)
        = processFilesFresh fuel pre
          ++ runPart000Fresh fuel r :: processFilesFresh fuel post := by
  intro fuel pre post r
  unfold processFilesFresh
  rw [processFilesFresh_foldl, processFilesFresh_foldl, processFilesFresh_foldl]
  simp

/-! ## Statement/expression printer (part_003 lines 211–722)

`SourceNode`s are modelled by the strings they stringify to: `sourceNodeHelper`
concatenates its chunks, `SourceNode.add`/`prepend` append/prepend them, and
`toString` is the identity.  `undefined` entries filtered out of chunk arrays
are `Option.none`.  `this.generateIdentifier(...)` is abstracted as a pure
renaming function `genId` (claims C2/C4 prove the stateful generator is a
memoized function of the original name).  JavaScript `Array.join()` (with its
default `","` separator, used only inside the separator check of
`addWithSeparator`) is `joinComma`; `Array.join("")`-style concatenation of a
node's chunks is `strJoin`. -/

/-- Concatenation of a chunk list, as `SourceNode` stringification does. -/
def strJoin : List String → String
  | [] => ""
  | s :: rest => s ++ strJoin rest

/-- JavaScript `array.join()` — elements joined with `","`. -/
def joinComma : List String → String
  | [] => ""
  | [s] => s
  | s :: rest => s ++ "," ++ joinComma rest

/-- part_003 `insertSeparator(a, b)`: a `" "` chunk or `undefined`. -/
def insertSeparator (a b : String) : Option String :=
  if isNeedSeparator a b then some " " else none

/-- Concatenate chunks after dropping the `undefined` entries, as
`[...].filter((p) => p !== undefined)` followed by node stringification. -/
def concatChunks (l : List (Option String)) : String :=
  strJoin (l.filterMap id)

/-- part_003 `addWithSeparator(val, adding, separator = " ")`. -/
def addWithSeparator (val : String) (adding : List String) (separator : String) : String :=
  if isNeedSeparator val (joinComma adding) then val ++ separator ++ strJoin adding
  else val ++ strJoin adding

/-- part_003 `prependWithSeparator(val, prepending, separator = " ")`. -/
def prependWithSeparator (val : String) (prepending : List String) (separator : String) :
    String :=
  if isNeedSeparator (joinComma prepending) val then strJoin prepending ++ separator ++ val
  else strJoin prepending ++ val

/-- part_003 `PRECEDENCE` table; absent operators give `undefined`. -/
def PRECEDENCE : String → Option Nat
  | "or" => some 1
  | "and" => some 2
  | "<" | ">" | "<=" | ">=" | "~=" | "==" => some 3
  | ".." => some 5
  | "+" | "-" => some 6
  | "*" | "/" | "%" => some 7
  | "unarynot" | "unary#" | "unary-" => some 8
  | "^" => some 10
  | _ => none

/-- JavaScript `<` on number-or-undefined values. -/
def jsLt : Option Nat → Option Nat → Bool
  | some a, some b => a < b
  | _, _ => false

/-- JavaScript `==` on number-or-undefined values
(`undefined == undefined` is `true`). -/
def jsEqNum : Option Nat → Option Nat → Bool
  | some a, some b => a == b
  | none, none => true
  | _, _ => false

inductive LitKind where
  | str | num | bool | nil | vararg
deriving DecidableEq

inductive LParam where
  | id (name : String)
  | vararg (value : String)
deriving DecidableEq

inductive EDir where
  | left | right
deriving DecidableEq

/-- part_003 `ExpressionOptoions` after the `{precedence: 0,
preserveIdentifiers: false, ...argOptions}` merge: absent keys keep
`undefined` (`none`); `precedence` defaults to `0`. -/
structure EOpts where
  precedence : Option Nat := some 0
  preserveIdentifiers : Bool := false
  direction : Option EDir := none
  parent : Option String := none
deriving DecidableEq

mutual
inductive LExpr where
  | ident (name : String) (isLocal : Bool)
  | lit (kind : LitKind) (raw : String)
  | binop (operator : String) (left right : LExpr)
  | unop (operator : String) (argument : LExpr)
  | call (base : LExpr) (args : List LExpr)
  | tableCall (base : LExpr) (arg : LExpr)
  | strCall (base : LExpr) (arg : LExpr)
  | indexE (base index : LExpr)
  | member (base : LExpr) (indexer : String) (idf : LExpr)
  | funcE (params : List LParam) (body : List LStmt)
  | table (fields : List LField)

inductive LField where
  | tableKey (key value : LExpr)
  | tableValue (value : LExpr)
  | tableKeyStr (key value : LExpr)

inductive LClause where
  | ifC (cond : LExpr) (body : List LStmt)
  | elseifC (cond : LExpr) (body : List LStmt)
  | elseC (body : List LStmt)

inductive LStmt where
  | assign (vars inits : List LExpr)
  | localS (vars inits : List LExpr)
  | callS (e : LExpr)
  | ifS (clauses : List LClause)
  | whileS (cond : LExpr) (body : List LStmt)
  | doS (body : List LStmt)
  | returnS (args : List LExpr)
  | breakS
  | repeatS (body : List LStmt) (cond : LExpr)
  | funcS (isLocal : Bool) (identifier : Option LExpr) (params : List LParam)
      (body : List LStmt)
  | forNum (varName : String) (startE endE : LExpr) (stepE : Option LExpr)
      (body : List LStmt)
  | forGen (vars : List String) (iterators : List LExpr) (body : List LStmt)
  | labelS (name : String)
  | gotoS (name : String)
end

/-- A parameter rendered as in both function printers: identifiers go through
the identifier generator, the vararg literal keeps its raw value. -/
def paramStr (genId : String → String) : LParam → String
  | .id name => genId name
  | .vararg value => value

/-- `parameters.map(...).flat().slice(0, -1)`: parameter chunks with a `","`
between consecutive ones. -/
def paramElems (genId : String → String) : List LParam → List String
  | [] => []
  | [p] => [paramStr genId p]
  | p :: rest => paramStr genId p :: "," :: paramElems genId rest

/-- `variables.map(...).flat().slice(0, -1)` for plain strings. -/
def commaElems : List String → List String
  | [] => []
  | [s] => [s]
  | s :: rest => s :: "," :: commaElems rest

/-- `s.includes("property")` — the Stormworks trailing-comma marker test. -/
def includesProp (s : String) : Bool :=
  decide ("property".data <:+: s.data)

/-- `comma` as a chunk suffix: the `undefined` case contributes nothing. -/
def commaStr : Option String → String
  | some c => c
  | none => ""

set_option maxHeartbeats 2000000

mutual
/-- part_003 `formatStatementList`: fold the statements into one node with
`addWithSeparator(result, ..., "\n")`. -/
def formatStatementListAux (genId : String → String) (result : String) :
    List LStmt → String
  | [] => result
  | statement :: rest =>
    formatStatementListAux genId
      (addWithSeparator result [formatStatement genId statement] "\n") rest
termination_by l => (sizeOf l, 0)

/-- part_003 `formatStatement`. -/
def formatStatement (genId : String → String) : LStmt → String
  | .assign vars inits =>
    let result := strJoin (formatExprElems genId vars)
    let result := addWithSeparator result ["="] " "
    addWithSeparator result [strJoin (formatExprElems genId inits)] " "
  | .localS vars inits =>
    let result := "local " ++ strJoin (formatExprElems genId vars)
    if inits.isEmpty then result
    else
      let result := addWithSeparator result ["="] " "
      addWithSeparator result [strJoin (formatExprElems genId inits)] " "
  | .callS e => formatExpression genId e {}
  | .ifS clauses =>
    addWithSeparator (formatClauses genId "" clauses) ["end"] " "
  | .whileS cond body =>
    let result := addWithSeparator "while" [formatExpression genId cond {}] " "
    let result := addWithSeparator result ["do"] " "
    let result := addWithSeparator result [formatStatementListAux genId "" body] " "
    addWithSeparator result ["end"] " "
  | .doS body =>
    let result := addWithSeparator "do" [formatStatementListAux genId "" body] " "
    addWithSeparator result ["end"] " "
  | .returnS args =>
    if args.isEmpty then "return"
    else addWithSeparator "return" (formatExprElems genId args) " "
  | .breakS => "break"
  | .repeatS body cond =>
    let result := addWithSeparator "repeat" [formatStatementListAux genId "" body] " "
    let result := addWithSeparator result ["until"] " "
    addWithSeparator result [formatExpression genId cond {}] " "
  | .funcS isLocal identifier params body =>
    let result := (if isLocal then "local " else "") ++ "function "
    let result :=
      match identifier with
      | some idf => addWithSeparator result [formatExpression genId idf {}] " "
      | none => result
    let result := addWithSeparator result ["("] " "
    let result :=
      if params.isEmpty then result
      else addWithSeparator result (paramElems genId params) " "
    let result := addWithSeparator result [")"] " "
    let result := addWithSeparator result [formatStatementListAux genId "" body] " "
    addWithSeparator result ["end"] " "
  | .forNum varName startE endE stepE body =>
    let result := addWithSeparator "for" [genId varName] " "
    let result := addWithSeparator result ["="] " "
    let result := addWithSeparator result [formatExpression genId startE {}] " "
    let result := addWithSeparator result [","] " "
    let result := addWithSeparator result [formatExpression genId endE {}] " "
    let result :=
      match stepE with
      | some step =>
        addWithSeparator (addWithSeparator result [","] " ")
          [formatExpression genId step {}] " "
      | none => result
    let result := addWithSeparator result ["do"] " "
    let result := addWithSeparator result [formatStatementListAux genId "" body] " "
    addWithSeparator result ["end"] " "
  | .forGen vars iterators body =>
    let result := addWithSeparator "for" (commaElems (vars.map genId)) " "
    let result := addWithSeparator result ["in"] " "
    let result := addWithSeparator result (formatExprElems genId iterators) " "
    let result := addWithSeparator result ["do"] " "
    let result := addWithSeparator result [formatStatementListAux genId "" body] " "
    addWithSeparator result ["end"] " "
  | .labelS name => "::" ++ genId name ++ "::"
  | .gotoS name => "goto " ++ genId name
termination_by s => (sizeOf s, 0)

/-- The `statement.clauses.forEach` loop of the `IfStatement` case. -/
def formatClauses (genId : String → String) (result : String) : List LClause → String
  | [] => result
  | clause :: rest =>
    let clauseMap :=
      match clause with
      | .ifC cond body =>
        let m := addWithSeparator "" ["if"] " "
        let m := addWithSeparator m [formatExpression genId cond {}] " "
        let m := addWithSeparator m ["then"] " "
        addWithSeparator m [formatStatementListAux genId "" body] " "
      | .elseifC cond body =>
        let m := addWithSeparator "" ["elseif"] " "
        let m := addWithSeparator m [formatExpression genId cond {}] " "
        let m := addWithSeparator m ["then"] " "
        addWithSeparator m [formatStatementListAux genId "" body] " "
      | .elseC body =>
        let m := addWithSeparator "" ["else"] " "
        addWithSeparator m [formatStatementListAux genId "" body] " "
    formatClauses genId (addWithSeparator result [clauseMap] " ") rest
termination_by l => (sizeOf l, 0)

/-- part_003 `formatExpression(expression, argOptions)`. -/
def formatExpression (genId : String → String) (expression : LExpr)
    (options : EOpts) : String :=
  match expression with
  | .ident name isLocal => if isLocal then genId name else name
  | .lit _ raw => raw
  | .binop operator left right =>
    let currentPrecedence := PRECEDENCE operator
    let leftHand := formatExpression genId left
      { precedence := currentPrecedence, direction := some .left, parent := some operator }
    let rightHand := formatExpression genId right
      { precedence := currentPrecedence, direction := some .right, parent := some operator }
    -- the `else if` of the source: when the operator is `^` or `..` the
    -- associativity is set to "right" and the parenthesization test is
    -- skipped entirely
    if operator == "^" || operator == ".." then
      concatChunks [some leftHand, insertSeparator leftHand operator, some operator,
        insertSeparator operator rightHand, some rightHand]
    else if jsLt currentPrecedence options.precedence
        || (jsEqNum currentPrecedence options.precedence
            && !(options.direction == some EDir.left)
            && !(options.parent == some "+")
            && !((options.parent == some "*")
                 && (operator == "/" || operator == "*"))) then
      concatChunks [some "(", some leftHand, insertSeparator leftHand operator,
        some operator, insertSeparator operator rightHand, some rightHand, some ")"]
    else
      concatChunks [some leftHand, insertSeparator leftHand operator, some operator,
        insertSeparator operator rightHand, some rightHand]
  | .unop operator argument =>
    let currentPrecedence := PRECEDENCE ("unary" ++ operator)
    let p2 := formatExpression genId argument { precedence := currentPrecedence }
    let result := concatChunks [some operator, insertSeparator operator p2, some p2]
    if jsLt currentPrecedence options.precedence
        && !((options.parent == some "^") && (options.direction == some EDir.right)) then
      "(" ++ result ++ ")"
    else
      result
  | .call base args =>
    formatBase genId base ++ "(" ++ strJoin (formatExprElems genId args) ++ ")"
  | .tableCall base arg =>
    formatExpression genId base {} ++ formatExpression genId arg {}
  | .strCall base arg =>
    formatExpression genId base {} ++ formatExpression genId arg {}
  | .indexE base index =>
    formatBase genId base ++ "[" ++ formatExpression genId index {} ++ "]"
  | .member base indexer idf =>
    formatBase genId base ++ indexer
      ++ formatExpression genId idf { preserveIdentifiers := true }
  | .funcE params body =>
    let result := "function("
    let result :=
      if params.isEmpty then result
      else addWithSeparator result (paramElems genId params) " "
    let result := result ++ ")"
    let result := addWithSeparator result [formatStatementListAux genId "" body] " "
    addWithSeparator result ["end"] " "
  | .table fields =>
    let result := addWithSeparator "\x7b" (formatFields genId fields) " "
    addWithSeparator result ["\x7d"] " "
termination_by (sizeOf expression, 0)

/-- The `expression.fields.map((field, ix, ar) => ...)` body of the table
constructor case; `ix !== ar.length - 1` is "the field is not the last". -/
def formatFields (genId : String → String) : List LField → List String
  | [] => []
  | field :: rest =>
    match field with
    | .tableKey key value =>
      let comma : Option String :=
        if !rest.isEmpty || includesProp (formatExpression genId value {}) then some ","
        else none
      ("[" ++ formatExpression genId key {} ++ "]" ++ "="
        ++ formatExpression genId value {} ++ commaStr comma) :: formatFields genId rest
    | .tableValue value =>
      let comma : Option String :=
        if !rest.isEmpty || includesProp (formatExpression genId value {}) then some ","
        else none
      ([formatExpression genId value {}] ++ comma.toList) ++ formatFields genId rest
    | .tableKeyStr key value =>
      let comma : Option String :=
        if !rest.isEmpty || includesProp (formatExpression genId value {}) then some ","
        else none
      (formatExpression genId key { preserveIdentifiers := true } ++ "="
        ++ formatExpression genId value {} ++ commaStr comma) :: formatFields genId rest
termination_by l => (sizeOf l, 0)

/-- part_003 `formatBase`. -/
def formatBase (genId : String → String) (base : LExpr) : String :=
  let needsParens :=
    match base with
    | .call _ _ => true
    | .binop _ _ _ => true
    | .funcE _ _ => true
    | .table _ => true
    | .lit .str _ => true
    | _ => false
  let result := formatExpression genId base {}
  if needsParens then
    addWithSeparator (prependWithSeparator result ["("] " ") [")"] " "
  else
    result
termination_by (sizeOf base, 1)

/-- `map(... => [formatExpression(e), ","]).flat().slice(0, -1)`. -/
def formatExprElems (genId : String → String) : List LExpr → List String
  | [] => []
  | [e] => [formatExpression genId e {}]
  | e :: rest => formatExpression genId e {} :: "," :: formatExprElems genId rest
termination_by l => (sizeOf l, 0)
end

/-- Claim C1, evaluated at the failing input `(x..y)*z` (a `..` child under a
`*` parent requiring precedence 7): the claim requires parentheses around the
lower-precedence `..` child, but the source's `else if` skips the
parenthesization test whenever the operator is `^` or `..`, so the printer
emits `x..y*z` — which re-parses as `x..(y*z)`. -/
theorem C1_concat_precedence_eval :
    formatExpression (fun n => n)
      (.binop "*" (.binop ".." (.ident "x" false) (.ident "y" false)) (.ident "z" false))
      {} = "x..y*z" := by
  simp only [formatExpression]
  rfl

/-- The value sub-expression whose rendered text decides the trailing comma. -/
def fieldValueOf : LField → LExpr
  | .tableKey _ value => value
  | .tableValue value => value
  | .tableKeyStr _ value => value

/-- One table field as printed, without its comma. -/
def fieldBodyClaim (genId : String → String) : LField → String
  | .tableKey key value =>
    "[" ++ formatExpression genId key {} ++ "]" ++ "="
      ++ formatExpression genId value {}
  | .tableValue value => formatExpression genId value {}
  | .tableKeyStr key value =>
    formatExpression genId key { preserveIdentifiers := true } ++ "="
      ++ formatExpression genId value {}

/-- The field list rendered exactly as claim C7 words it: every field except
the last is followed by a comma, and the last is followed by a comma if and
only if its value's rendered text contains `"property"`. -/
def fieldsClaimRender (genId : String → String) : List LField → String
  | [] => ""
  | [field] =>
    fieldBodyClaim genId field
      ++ (if includesProp (formatExpression genId (fieldValueOf field) {}) then ","
          else "")
  | field :: rest => fieldBodyClaim genId field ++ "," ++ fieldsClaimRender genId rest

theorem sep_after_brace (s : String) : isNeedSeparator "\x7b" s = false := by
  rcases hb : s.data.head? with _ | fb
  · simp [isNeedSeparator, hb]
  · simp [isNeedSeparator, hb, regexAlphaUnderscore, regexDigits,
      show (('\x7b' : Char) == '-') = false from rfl,
      show (('\x7b' : Char) == '.') = false from rfl]

theorem sep_before_brace (s : String) : isNeedSeparator s "\x7d" = false := by
  rcases ha : s.data.getLast? with _ | la
  · simp [isNeedSeparator, ha]
  · simp only [isNeedSeparator, ha,
      show ("\x7d" : String).data.head? = some '\x7d' from rfl]
    by_cases h1 : regexAlphaUnderscore la = true
    · rw [if_pos h1]
      decide
    · rw [if_neg h1]
      by_cases h2 : regexDigits la = true
      · rw [if_pos h2]
        decide
      · rw [if_neg h2]
        have hc1 : (la == '\x7d' && la == '-') = false := by
          cases heq : la == '\x7d' with
          | false => simp
          | true =>
            have he : la = '\x7d' := by simpa using heq
            subst he
            decide
        rw [if_neg (by simp [hc1])]
        have hc2 : (la == '.' && !(s.data.dropLast.getLast? == some '.')
            && regexAlphaNumUnderscore '\x7d') = false := by
          simp [show regexAlphaNumUnderscore '\x7d' = false from by decide]
        rw [if_neg (by simp [hc2])]

theorem addWithSeparator_brace_open (l : List String) :
    addWithSeparator "\x7b" l " " = "\x7b" ++ strJoin l := by
  unfold addWithSeparator
  rw [sep_after_brace]
  simp

theorem addWithSeparator_brace_close (v : String) :
    addWithSeparator v ["\x7d"] " " = v ++ "\x7d" := by
  unfold addWithSeparator
  rw [show joinComma ["\x7d"] = "\x7d" from rfl, sep_before_brace]
  simp only [Bool.false_eq_true, reduceIte]
  rw [show strJoin ["\x7d"] = "\x7d" from rfl]

theorem formatFields_join (genId : String → String) :
    ∀ fields, strJoin (formatFields genId fields) = fieldsClaimRender genId fields := by
  intro fields
  induction fields with
  | nil =>
    simp only [formatFields]
    rfl
  | cons f rest ih =>
    rcases rest with _ | ⟨g, gs⟩
    · cases f with
      | tableKey k v =>
        simp only [formatFields, List.isEmpty_nil, Bool.not_true, Bool.false_or,
          fieldsClaimRender, fieldBodyClaim, fieldValueOf]
        by_cases hp : includesProp (formatExpression genId v {}) = true
        · simp [hp, commaStr, strJoin, String.append_empty, String.append_assoc]
        · simp only [Bool.not_eq_true] at hp
          simp [hp, commaStr, strJoin, String.append_empty]
      | tableValue v =>
        simp only [formatFields, List.isEmpty_nil, Bool.not_true, Bool.false_or,
          fieldsClaimRender, fieldBodyClaim, fieldValueOf]
        by_cases hp : includesProp (formatExpression genId v {}) = true
        · simp [hp, Option.toList, strJoin, String.append_empty, String.append_assoc]
        · simp only [Bool.not_eq_true] at hp
          simp [hp, Option.toList, strJoin, String.append_empty]
      | tableKeyStr k v =>
        simp only [formatFields, List.isEmpty_nil, Bool.not_true, Bool.false_or,
          fieldsClaimRender, fieldBodyClaim, fieldValueOf]
        by_cases hp : includesProp (formatExpression genId v {}) = true
        · simp [hp, commaStr, strJoin, String.append_empty, String.append_assoc]
        · simp only [Bool.not_eq_true] at hp
          simp [hp, commaStr, strJoin, String.append_empty]
    · cases f with
      | tableKey k v =>
        simp only [formatFields, List.isEmpty_cons, Bool.not_false, Bool.true_or,
          fieldsClaimRender, fieldBodyClaim, commaStr, strJoin]
        rw [ih]
        simp [String.append_assoc]
      | tableValue v =>
        simp only [formatFields, List.isEmpty_cons, Bool.not_false, Bool.true_or,
          fieldsClaimRender, fieldBodyClaim, Option.toList, List.cons_append,
          List.nil_append, List.append_eq, strJoin]
        rw [ih]
        simp [String.append_assoc]
      | tableKeyStr k v =>
        simp only [formatFields, List.isEmpty_cons, Bool.not_false, Bool.true_or,
          fieldsClaimRender, fieldBodyClaim, commaStr, strJoin]
        rw [ih]
        simp [String.append_assoc]

/-- Claim C7: a printed table constructor is the brace-wrapped field list in
which every field except the last is followed by a comma, and the last field
carries a trailing comma exactly when its value's rendered text contains the
marker substring `"property"`. -/
theorem C7_trailing_comma :
    ∀ (genId : String → String) (fields : List LField) (options : EOpts),
      formatExpression genId (.table fields) options
        = "\x7b" ++ fieldsClaimRender genId fields ++ "\x7d" := by
  intro genId fields options
  rw [show formatExpression genId (.table fields) options
      = addWithSeparator (addWithSeparator "\x7b" (formatFields genId fields) " ")
          ["\x7d"] " " from by rw [formatExpression]]
  rw [addWithSeparator_brace_open, addWithSeparator_brace_close, formatFields_join]
